import Mathlib

/-
Verification of the search-engine adapter layer of SearchInProject
(searchengines/base.py) against its specification.

Modelling conventions.
Python `str` values are modelled as `List Char` (named `Str` below); the
decoding step `bytes.decode("utf-8", "ignore")` is modelled as the identity,
so process stdout/stderr enter the model already decoded.  Python functions
that can raise are modelled in `Except PyError`; each `PyError` constructor
records which concrete Python exception it stands for.  All definitions are
plain structural recursion so that every concrete run can be checked by the
kernel with `rfl` or `decide`.
-/

namespace SearchInProject

/-- Python strings, modelled as lists of characters (code points). -/
abbrev Str := List Char

/-- Python `<` on single characters: comparison of code points. -/
def charLt (a b : Char) : Bool := a < b

/-- Lexicographic strict order on lists, parameterized by the element
comparison; this is how Python compares two `str` (element = code point)
and two `list` (element = `str`) values. -/
def lexLt {α : Type} (lt : α → α → Bool) : List α → List α → Bool
  | [], [] => false
  | [], _ :: _ => true
  | _ :: _, [] => false
  | a :: as, b :: bs => if lt a b then true else if lt b a then false else lexLt lt as bs

/-- Python `<` on two strings. -/
def strLt (a b : Str) : Bool := lexLt charLt a b

/-- Python `<` on two lists of strings. -/
def listLt (a b : List Str) : Bool := lexLt strLt a b

/-- Python `s.split(sep)` for a one-character separator `sep`: splitting the
empty string yields one empty piece, and every occurrence of `sep` starts a
new piece. -/
def pySplit (sep : Char) : Str → List Str
  | [] => [[]]
  | c :: rest =>
    if c = sep then [] :: pySplit sep rest
    else
      match pySplit sep rest with
      | t :: ts => (c :: t) :: ts
      | [] => [[c]]

/-- Python `sep.join(pieces)` for a one-character separator. -/
def pyJoin (sep : Char) : List Str → Str
  | [] => []
  | [s] => s
  | s :: t :: rest => s ++ sep :: pyJoin sep (t :: rest)

/-- The ASCII whitespace characters stripped by Python `str.strip()`. -/
def isPySpace (c : Char) : Bool :=
  c = ' ' || c = '\t' || c = '\n' || c = '\x0d' || c = '\x0b' || c = '\x0c'

/-- Python `s.strip()`: remove leading and trailing whitespace. -/
def pyStrip (s : Str) : Str :=
  ((s.dropWhile isPySpace).reverse.dropWhile isPySpace).reverse

/-- Python `s.startswith(pre)`: raw string prefix test. -/
def pyStartswith (s pre : Str) : Bool := List.isPrefixOf pre s

/-- One step of Python stable sorting: insert `x` into an already sorted
list, after every element not strictly greater than `x` (stability). -/
def insertSorted (x : Str) : List Str → List Str
  | [] => [x]
  | y :: ys => if strLt x y then x :: y :: ys else y :: insertSorted x ys

/-- Python `sorted(l)` on a list of strings: a stable sort by `<`,
modelled as stable insertion sort (extensionally equal to any stable
sort by a total order, hence to CPython's Timsort). -/
def pySorted (l : List Str) : List Str := l.foldr insertSorted []

/-- Python `min(x :: xs)`: fold keeping the first minimal element. -/
def pyMinL (x : List Str) (xs : List (List Str)) : List Str :=
  xs.foldl (fun best y => if listLt y best then y else best) x

/-- Python `max(x :: xs)`: fold keeping the first maximal element. -/
def pyMaxL (x : List Str) (xs : List (List Str)) : List Str :=
  xs.foldl (fun best y => if listLt best y then y else best) x

/-- The Python exceptions the modelled code can raise.  Each constructor
stands for one concrete `raise` site / runtime error. -/
inductive PyError
  /-- ValueError, message `commonpath() arg is an empty sequence` (base.py line 100). -/
  | valueErrorEmptySeq
  /-- ValueError, message `Can't mix absolute and relative paths` (base.py line 116). -/
  | valueErrorMixedPaths
  /-- IndexError raised by `PARSER_RE.findall(line)[0]` on a non-matching line (base.py line 208). -/
  | indexError
  /-- RuntimeError raised in `run` with the sanitized stderr as message (base.py line 168). -/
  | runtimeError (msg : Str)
  /-- ValueError `No closing quotation` raised by `shlex.split`. -/
  | shlexNoClosingQuote
  /-- ValueError `No escaped character` raised by `shlex.split`. -/
  | shlexNoEscapedChar
  deriving DecidableEq

instance {ε α : Type} [DecidableEq ε] [DecidableEq α] : DecidableEq (Except ε α) := fun a b =>
  match a, b with
  | .ok x, .ok y => if h : x = y then .isTrue (by simp [h]) else .isFalse (by simp [h])
  | .error x, .error y => if h : x = y then .isTrue (by simp [h]) else .isFalse (by simp [h])
  | .ok _, .error _ => .isFalse (by simp)
  | .error _, .ok _ => .isFalse (by simp)

/-! ### shlex.split

`Base._arguments` tokenizes the two option strings with `shlex.split`,
i.e. POSIX-mode lexing with whitespace splitting: single quotes group
literally, double quotes group with backslash escaping `"` and backslash,
and outside quotes a backslash escapes the following character. -/

/-- Lexer mode of the `shlex.split` state machine: outside quotes, inside
single quotes, or inside double quotes. -/
inductive ShMode
  | norm
  | inSingle
  | inDouble
  deriving DecidableEq

/-- One pass of the POSIX `shlex` lexer over the remaining characters.
`cur = none` means no token is in progress; `cur = some t` means the token
`t` has been started (possibly empty, e.g. by an empty quoted string). -/
def shlexAux : ShMode → Option Str → List Str → List Char → Except PyError (List Str)
  | .norm, none, toks, [] => .ok toks
  | .norm, some t, toks, [] => .ok (toks ++ [t])
  | .norm, cur, toks, c :: rest =>
    if isPySpace c then
      match cur with
      | none => shlexAux .norm none toks rest
      | some t => shlexAux .norm none (toks ++ [t]) rest
    else if c = '\'' then shlexAux .inSingle (some (cur.getD [])) toks rest
    else if c = '"' then shlexAux .inDouble (some (cur.getD [])) toks rest
    else if c = '\\' then
      match rest with
      | [] => .error .shlexNoEscapedChar
      | d :: rest2 => shlexAux .norm (some (cur.getD [] ++ [d])) toks rest2
    else shlexAux .norm (some (cur.getD [] ++ [c])) toks rest
  | .inSingle, _, _, [] => .error .shlexNoClosingQuote
  | .inSingle, cur, toks, c :: rest =>
    if c = '\'' then shlexAux .norm cur toks rest
    else shlexAux .inSingle (some (cur.getD [] ++ [c])) toks rest
  | .inDouble, _, _, [] => .error .shlexNoClosingQuote
  | .inDouble, cur, toks, c :: rest =>
    if c = '"' then shlexAux .norm cur toks rest
    else if c = '\\' then
      match rest with
      | [] => .error .shlexNoEscapedChar
      | d :: rest2 =>
        if d = '"' ∨ d = '\\' then shlexAux .inDouble (some (cur.getD [] ++ [d])) toks rest2
        else shlexAux .inDouble (some (cur.getD [] ++ ['\\', d])) toks rest2
    else shlexAux .inDouble (some (cur.getD [] ++ [c])) toks rest

/-- Python `shlex.split(s)` (POSIX mode, whitespace splitting), as called
by `Base._arguments` (base.py lines 188 and 189). -/
def shlexSplit (s : Str) : Except PyError (List Str) :=
  shlexAux .norm none [] s

/-! ### Base.PARSER_RE

base.py line 29 fixes the line pattern
`^((?:\w\:[\\|/]|\/)[^:]+):([\d:]+):(.*)`.
The matcher below is a direct functional embedding of that regular
expression under Python `re` semantics (leftmost match, greedy with
backtracking, `.` not matching a newline).  Since the pattern is anchored
at the start of the string, `findall` returns at most one tuple of the
three groups, so `Base.PARSER_RE.findall(line)` is modelled as an
`Option` of the group triple. -/

/-- Python regex `\w` on the ASCII range: letters, digits and underscore
(the inputs of this plugin are file-system paths and grep output). -/
def isWordChar (c : Char) : Bool := c.isAlphanum || c = '_'

/-- Matches the leading group-1 alternation `(?:\w\:[\\|/]|\/)` of
`PARSER_RE` against the start of the line, returning the consumed
characters and the remainder.  The two alternatives are distinguished by
the first character (a word character is never `/`), so the ordered
alternation is deterministic. -/
def reStart (line : Str) : Option (Str × Str) :=
  match line with
  | c :: ':' :: d :: rest =>
    if isWordChar c ∧ (d = '\\' ∨ d = '|' ∨ d = '/') then some ([c, ':', d], rest)
    else if c = '/' then some (['/'], ':' :: d :: rest)
    else none
  | '/' :: rest => some (['/'], rest)
  | _ => none

/-- Splits a run of `[\d:]` characters at its last colon, returning the
part before and the part after that colon; `none` when the run holds no
colon.  This is exactly where a greedy `([\d:]+):` lands after
backtracking: the group keeps the longest portion of the run that is
still followed by a colon. -/
def splitAtLastColon : Str → Option (Str × Str)
  | [] => none
  | c :: rest =>
    match splitAtLastColon rest with
    | some (pre, post) => some (c :: pre, post)
    | none => if c = ':' then some ([], rest) else none

/-- The digit-or-colon character class `[\d:]` of `PARSER_RE`. -/
def isDigitOrColon (c : Char) : Bool := c.isDigit || c = ':'

/-- Full match of `PARSER_RE` against one line: the triple of the three
capture groups of `^((?:\w\:[\\|/]|\/)[^:]+):([\d:]+):(.*)`, or `none`
when the line does not match. -/
def reMatchLine (line : Str) : Option (Str × Str × Str) :=
  match reStart line with
  | none => none
  | some (g1head, rest) =>
    -- `[^:]+` is greedy and the following `:` cannot occur inside it,
    -- so group 1 continues with the maximal run of non-colon characters.
    let g1tail := rest.takeWhile (fun c => !(c = ':'))
    if g1tail.isEmpty then none
    else
      match rest.drop g1tail.length with
      | ':' :: rest2 =>
        -- `([\d:]+):` over the maximal `[\d:]` run, backtracking to the
        -- last colon of the run.
        let run := rest2.takeWhile isDigitOrColon
        match splitAtLastColon run with
        | some (g2, runTail) =>
          if g2.isEmpty then none
          else
            -- `(.*)` takes the rest of the line up to a newline.
            let g3 := (runTail ++ rest2.drop run.length).takeWhile (fun c => !(c = '\n'))
            some (g1head ++ g1tail, g2, g3)
        | none => none
      | _ => none

/-! ### The Base search-engine class (base.py)

The settings `path_to_executable`, `mandatory_options` and
`common_options` are instance attributes read from the configuration;
they appear here as explicit arguments. -/

/-- `Base._sanitize_output` (base.py lines 194 and 195):
`output.decode('utf-8', 'ignore').strip()`; decoding is the identity in
this model, leaving the `strip`. -/
def _sanitize_output (output : Str) : Str := pyStrip output

/-- `Base._parse_output` (base.py lines 197 to 217): split the output on
newlines and take `PARSER_RE.findall(line)[0]` for every line.  On a line
without a match, `findall` returns the empty list and the `[0]` indexing
raises IndexError, which aborts the whole call. -/
def _parse_output (output : Str) : Except PyError (List (Str × Str × Str)) :=
  (pySplit '\n' output).mapM fun line =>
    match reMatchLine line with
    | some parts => Except.ok parts
    | none => Except.error .indexError

/-- `Base._is_search_error` (base.py lines 219 and 220).  The body is the
bare expression statement `returncode != 0` without a `return`, so the
Python function evaluates the comparison, discards it, and always returns
`None` (modelled as `none`; a returned boolean would be `some b`). -/
def _is_search_error (returncode : Int) (output error : Str) : Option Bool :=
  let _ := decide (returncode ≠ 0)
  none

/-- Python truthiness of the `Option Bool` returned by
`_is_search_error`: `None` and `False` are falsy. -/
def pyTruthy : Option Bool → Bool
  | none => false
  | some b => b

/-- The tail of `Base.run` after `pipe.communicate()` (base.py lines 165
to 169): classify the process outcome and parse.  `returncode` is the
process exit code, `output` the decoded stdout, `error` the decoded
stderr. -/
def run_after_communicate (returncode : Int) (output error : Str) :
    Except PyError (List (Str × Str × Str)) :=
  if pyTruthy (_is_search_error returncode output error) then
    Except.error (.runtimeError (_sanitize_output error))
  else
    _parse_output (_sanitize_output output)

/-- The filtering loop of `Base._remove_subfolders` (base.py lines 175 to
179) after the first folder has been kept: `last` is
`unique_folders[-1]`, and a folder is appended only when it does not
`startswith` the last kept folder. -/
def dedupAux (last : Str) : List Str → List Str
  | [] => []
  | f :: fs => if pyStartswith f last then dedupAux last fs else f :: dedupAux f fs

/-- `Base._remove_subfolders` (base.py lines 171 to 180): iterate over
`sorted(folders)`, keeping a folder iff the kept list is empty or the
folder does not `startswith` the most recently kept folder. -/
def _remove_subfolders (folders : List Str) : List Str :=
  match pySorted folders with
  | [] => []
  | f :: fs => f :: dedupAux f fs

/-- `Base._arguments` (base.py lines 182 to 191):
`[path_to_executable] + shlex.split(mandatory_options) +
shlex.split(common_options) + [query] + folders`, with the two
`shlex.split` calls evaluated left to right. -/
def _arguments (path_to_executable mandatory_options common_options : Str)
    (query : Str) (folders : List Str) : Except PyError (List Str) := do
  let m ← shlexSplit mandatory_options
  let c ← shlexSplit common_options
  Except.ok ([path_to_executable] ++ m ++ c ++ [query] ++ folders)

/-- The per-path normalization inside `Base.commonpath` (base.py lines
111 and 118): split on the separator and drop empty and `.` segments. -/
def splitNorm (p : Str) : List Str :=
  (pySplit '/' p).filter fun c => !c.isEmpty && !(c = ['.'])

/-- The comparison loop of `Base.commonpath` (base.py lines 121 to 125):
`common = s1; for i, c in enumerate(s1): if c != s2[i]: common = s1[:i];
break`.  Indexing `s2[i]` past the end of `s2` raises IndexError,
modelled as `none`. -/
def commonLoop : List Str → List Str → Option (List Str)
  | [], _ => some []
  | _ :: _, [] => none
  | a :: s1, b :: s2 =>
    if a = b then (commonLoop s1 s2).map (a :: ·) else some []

/-- `Base.commonpath` (base.py lines 94 to 131) on POSIX (`os.sep` is
`/`): raise on an empty sequence, determine `isabs` from the first
character of each path and raise when the paths disagree, normalize each
split path, run the comparison loop on the minimum and maximum of the
normalized split paths, and join the common segments back onto the
absolute-path marker. -/
def commonpath (paths : List Str) : Except PyError Str :=
  match paths with
  | [] => Except.error .valueErrorEmptySeq
  | p0 :: rest =>
    let isabs : Bool := decide (p0.take 1 = ['/'])
    if rest.all (fun p => decide (p.take 1 = ['/']) == isabs) then
      let s1 := pyMinL (splitNorm p0) (rest.map splitNorm)
      let s2 := pyMaxL (splitNorm p0) (rest.map splitNorm)
      match commonLoop s1 s2 with
      | none => Except.error .indexError
      | some common =>
        Except.ok ((if isabs then ['/'] else []) ++ pyJoin '/' common)
    else Except.error .valueErrorMixedPaths

/-! ### Specification-side definitions

Used only to compare the code against the spec's own wording. -/

/-- Modelled from the spec (section 4.1, `deduplicateRoots`): iterate over
the lexicographically sorted roots, keeping a root when no root has been
kept yet or the root does not start with the most recently kept root.
The accumulator carries the most recently kept root, `none` at the
start. -/
def dedupSpecAux : Option Str → List Str → List Str
  | _, [] => []
  | none, f :: fs => f :: dedupSpecAux (some f) fs
  | some l, f :: fs =>
    if pyStartswith f l then dedupSpecAux (some l) fs
    else f :: dedupSpecAux (some f) fs

/-- Modelled from the spec (section 4.1): `deduplicateRoots` as the spec
words it, over the sorted input, with the raw-string sub-path test the
counterexample to claim C4 forces. -/
def deduplicateRootsSpec (roots : List Str) : List Str :=
  dedupSpecAux none (pySorted roots)

/-! ### Order theory for the lexicographic comparisons -/

theorem lexLt_irrefl {α : Type} (lt : α → α → Bool) (hirr : ∀ a, lt a a = false) :
    ∀ l, lexLt lt l l = false := by
  intro l
  induction l with
  | nil => rfl
  | cons a as ih => simp [lexLt, hirr a, ih]

theorem lexLt_trans {α : Type} (lt : α → α → Bool)
    (hirr : ∀ a, lt a a = false)
    (htr : ∀ a b c, lt a b = true → lt b c = true → lt a c = true)
    (hconn : ∀ a b, lt a b = false → lt b a = false → a = b) :
    ∀ a b c, lexLt lt a b = true → lexLt lt b c = true → lexLt lt a c = true := by
  intro a
  induction a with
  | nil =>
    intro b c hab hbc
    cases b with
    | nil => simp [lexLt] at hab
    | cons y ys =>
      cases c with
      | nil => simp [lexLt] at hbc
      | cons z zs => simp [lexLt]
  | cons x xs ih =>
    intro b c hab hbc
    cases b with
    | nil => simp [lexLt] at hab
    | cons y ys =>
      cases c with
      | nil => simp [lexLt] at hbc
      | cons z zs =>
        simp only [lexLt] at hab hbc ⊢
        cases hxy : lt x y with
        | true =>
          cases hyz : lt y z with
          | true => simp [htr x y z hxy hyz]
          | false =>
            cases hzy : lt z y with
            | true => simp [hyz, hzy] at hbc
            | false =>
              have hyz' : y = z := hconn y z hyz hzy
              subst hyz'
              simp [hxy]
        | false =>
          cases hyx : lt y x with
          | true => simp [hxy, hyx] at hab
          | false =>
            have hxy' : x = y := hconn x y hxy hyx
            subst hxy'
            simp only [hxy, if_false, Bool.false_eq_true] at hab
            cases hxz : lt x z with
            | true => simp [hxz]
            | false =>
              cases hzx : lt z x with
              | true => simp [hxz, hzx] at hbc
              | false =>
                have hxz' : x = z := hconn x z hxz hzx
                subst hxz'
                simp only [hxz, if_false, Bool.false_eq_true] at hbc ⊢
                exact ih ys zs hab hbc

theorem lexLt_conn {α : Type} (lt : α → α → Bool)
    (hconn : ∀ a b, lt a b = false → lt b a = false → a = b) :
    ∀ a b, lexLt lt a b = false → lexLt lt b a = false → a = b := by
  intro a
  induction a with
  | nil =>
    intro b hab _
    cases b with
    | nil => rfl
    | cons y ys => simp [lexLt] at hab
  | cons x xs ih =>
    intro b hab hba
    cases b with
    | nil => simp [lexLt] at hba
    | cons y ys =>
      simp only [lexLt] at hab hba
      cases hxy : lt x y with
      | true => simp [hxy] at hab
      | false =>
        cases hyx : lt y x with
        | true => simp [hyx] at hba
        | false =>
          have hxy' : x = y := hconn x y hxy hyx
          subst hxy'
          simp only [hxy, if_false, Bool.false_eq_true] at hab hba
          rw [ih ys hab hba]

theorem charLt_irrefl : ∀ a : Char, charLt a a = false := by
  intro a; simp [charLt]

theorem charLt_trans : ∀ a b c : Char, charLt a b = true → charLt b c = true →
    charLt a c = true := by
  intro a b c hab hbc
  simp only [charLt, decide_eq_true_eq] at *
  exact lt_trans hab hbc

theorem charLt_conn : ∀ a b : Char, charLt a b = false → charLt b a = false → a = b := by
  intro a b hab hba
  simp only [charLt, decide_eq_false_iff_not, not_lt] at hab hba
  exact le_antisymm hba hab

theorem strLt_irrefl : ∀ a : Str, strLt a a = false :=
  lexLt_irrefl charLt charLt_irrefl

theorem strLt_trans : ∀ a b c : Str, strLt a b = true → strLt b c = true →
    strLt a c = true :=
  lexLt_trans charLt charLt_irrefl charLt_trans charLt_conn

theorem strLt_conn : ∀ a b : Str, strLt a b = false → strLt b a = false → a = b :=
  lexLt_conn charLt charLt_conn

theorem listLt_irrefl : ∀ a : List Str, listLt a a = false :=
  lexLt_irrefl strLt strLt_irrefl

theorem listLt_trans : ∀ a b c : List Str, listLt a b = true → listLt b c = true →
    listLt a c = true :=
  lexLt_trans strLt strLt_irrefl strLt_trans strLt_conn

theorem listLt_conn : ∀ a b : List Str, listLt a b = false → listLt b a = false → a = b :=
  lexLt_conn strLt strLt_conn

/-! ### Properties of the Python min and max folds -/

theorem pyMinL_mem : ∀ (xs : List (List Str)) (x : List Str), pyMinL x xs ∈ x :: xs := by
  intro xs
  induction xs with
  | nil => intro x; simp [pyMinL]
  | cons z zs ih =>
    intro x
    simp only [pyMinL, List.foldl_cons]
    cases h : listLt z x with
    | true =>
      simp only [h, if_true]
      have := ih z
      simp only [pyMinL, List.mem_cons] at this ⊢
      tauto
    | false =>
      simp only [h, Bool.false_eq_true, if_false]
      have := ih x
      simp only [pyMinL, List.mem_cons] at this ⊢
      tauto

theorem pyMinL_le : ∀ (xs : List (List Str)) (x y : List Str), y ∈ x :: xs →
    listLt y (pyMinL x xs) = false := by
  intro xs
  induction xs with
  | nil =>
    intro x y hy
    simp only [List.mem_cons, List.not_mem_nil, or_false] at hy
    rw [hy]
    simpa [pyMinL] using listLt_irrefl x
  | cons z zs ih =>
    intro x y hy
    simp only [pyMinL, List.foldl_cons]
    cases h : listLt z x with
    | true =>
      simp only [h, if_true]
      have hz : listLt z (pyMinL z zs) = false := ih z z (by simp)
      rcases List.mem_cons.1 hy with hyx | hy2
      · -- y is the dropped first element x; z below x, so x is not below the minimum either
        subst hyx
        cases hxm : listLt y (pyMinL z zs) with
        | false => simpa [pyMinL] using hxm
        | true =>
          have hzm : listLt z (pyMinL z zs) = true := listLt_trans z y _ h hxm
          rw [hz] at hzm
          exact absurd hzm (by simp)
      · simpa [pyMinL] using ih z y hy2
    | false =>
      simp only [h, Bool.false_eq_true, if_false]
      have hx : listLt x (pyMinL x zs) = false := ih x x (by simp)
      rcases List.mem_cons.1 hy with hyx | hy2
      · subst hyx
        simpa [pyMinL] using hx
      · rcases List.mem_cons.1 hy2 with hyz | hy3
        · -- y is the dropped element z with z not below x
          subst hyz
          cases hzm : listLt y (pyMinL x zs) with
          | false => simpa [pyMinL] using hzm
          | true =>
            cases hmx : listLt (pyMinL x zs) x with
            | true =>
              have hyx : listLt y x = true := listLt_trans y _ x hzm hmx
              rw [hyx] at h
              exact absurd h (by simp)
            | false =>
              have hxm' : x = pyMinL x zs := listLt_conn x _ hx hmx
              rw [← hxm'] at hzm
              rw [hzm] at h
              exact absurd h (by simp)
        · simpa [pyMinL] using ih x y (List.mem_cons_of_mem x hy3)

theorem pyMaxL_mem : ∀ (xs : List (List Str)) (x : List Str), pyMaxL x xs ∈ x :: xs := by
  intro xs
  induction xs with
  | nil => intro x; simp [pyMaxL]
  | cons z zs ih =>
    intro x
    simp only [pyMaxL, List.foldl_cons]
    cases h : listLt x z with
    | true =>
      simp only [h, if_true]
      have := ih z
      simp only [pyMaxL, List.mem_cons] at this ⊢
      tauto
    | false =>
      simp only [h, Bool.false_eq_true, if_false]
      have := ih x
      simp only [pyMaxL, List.mem_cons] at this ⊢
      tauto

theorem pyMaxL_ge : ∀ (xs : List (List Str)) (x y : List Str), y ∈ x :: xs →
    listLt (pyMaxL x xs) y = false := by
  intro xs
  induction xs with
  | nil =>
    intro x y hy
    simp only [List.mem_cons, List.not_mem_nil, or_false] at hy
    rw [hy]
    simpa [pyMaxL] using listLt_irrefl x
  | cons z zs ih =>
    intro x y hy
    simp only [pyMaxL, List.foldl_cons]
    cases h : listLt x z with
    | true =>
      simp only [h, if_true]
      have hz : listLt (pyMaxL z zs) z = false := ih z z (by simp)
      rcases List.mem_cons.1 hy with hyx | hy2
      · -- y is the dropped first element x with x below z
        subst hyx
        cases hmy : listLt (pyMaxL z zs) y with
        | false => simpa [pyMaxL] using hmy
        | true =>
          have hmz : listLt (pyMaxL z zs) z = true := listLt_trans _ y z hmy h
          rw [hz] at hmz
          exact absurd hmz (by simp)
      · simpa [pyMaxL] using ih z y hy2
    | false =>
      simp only [h, Bool.false_eq_true, if_false]
      have hx : listLt (pyMaxL x zs) x = false := ih x x (by simp)
      rcases List.mem_cons.1 hy with hyx | hy2
      · subst hyx
        simpa [pyMaxL] using hx
      · rcases List.mem_cons.1 hy2 with hyz | hy3
        · -- y is the dropped element z with x not below z
          subst hyz
          cases hmy : listLt (pyMaxL x zs) y with
          | false => simpa [pyMaxL] using hmy
          | true =>
            cases hxm : listLt x (pyMaxL x zs) with
            | true =>
              have hxy : listLt x y = true := listLt_trans x _ y hxm hmy
              rw [hxy] at h
              exact absurd h (by simp)
            | false =>
              have hxm' : x = pyMaxL x zs := listLt_conn x _ hxm hx
              rw [← hxm'] at hmy
              rw [hmy] at h
              exact absurd h (by simp)
        · simpa [pyMaxL] using ih x y (List.mem_cons_of_mem x hy3)

/-! ### Properties of the commonpath comparison loop -/

theorem commonLoop_isPre : ∀ (s1 s2 c : List Str), commonLoop s1 s2 = some c →
    c <+: s1 ∧ c <+: s2 := by
  intro s1
  induction s1 with
  | nil =>
    intro s2 c h
    simp only [commonLoop, Option.some.injEq] at h
    subst h
    exact ⟨List.nil_prefix, List.nil_prefix⟩
  | cons a s1' ih =>
    intro s2 c h
    cases s2 with
    | nil => simp [commonLoop] at h
    | cons b s2' =>
      simp only [commonLoop] at h
      by_cases hab : a = b
      · subst hab
        rw [if_pos rfl] at h
        cases hloop : commonLoop s1' s2' with
        | none => rw [hloop] at h; simp at h
        | some c' =>
          rw [hloop] at h
          simp only [Option.map_some', Option.some.injEq] at h
          subst h
          obtain ⟨h1, h2⟩ := ih s2' c' hloop
          exact ⟨List.cons_prefix_cons.2 ⟨rfl, h1⟩, List.cons_prefix_cons.2 ⟨rfl, h2⟩⟩
      · simp only [if_neg hab, Option.some.injEq] at h
        subst h
        exact ⟨List.nil_prefix, List.nil_prefix⟩

theorem commonLoop_longest : ∀ (s1 s2 c : List Str), commonLoop s1 s2 = some c →
    ∀ s : Str, ¬(c ++ [s] <+: s1 ∧ c ++ [s] <+: s2) := by
  intro s1
  induction s1 with
  | nil =>
    intro s2 c h s hcontr
    simp only [commonLoop, Option.some.injEq] at h
    subst h
    obtain ⟨⟨t, ht⟩, _⟩ := hcontr
    simp at ht
  | cons a s1' ih =>
    intro s2 c h s hcontr
    cases s2 with
    | nil => simp [commonLoop] at h
    | cons b s2' =>
      simp only [commonLoop] at h
      by_cases hab : a = b
      · subst hab
        rw [if_pos rfl] at h
        cases hloop : commonLoop s1' s2' with
        | none => rw [hloop] at h; simp at h
        | some c' =>
          rw [hloop] at h
          simp only [Option.map_some', Option.some.injEq] at h
          subst h
          obtain ⟨h1, h2⟩ := hcontr
          rw [List.cons_append, List.cons_prefix_cons] at h1 h2
          exact ih s2' c' hloop s ⟨h1.2, h2.2⟩
      · simp only [if_neg hab, Option.some.injEq] at h
        subst h
        obtain ⟨h1, h2⟩ := hcontr
        simp only [List.nil_append, List.cons_prefix_cons] at h1 h2
        exact hab (h1.1.symm.trans h2.1)

theorem commonLoop_isSome : ∀ s1 s2 : List Str, listLt s2 s1 = false →
    ∃ c, commonLoop s1 s2 = some c := by
  intro s1
  induction s1 with
  | nil => intro s2 h; exact ⟨[], rfl⟩
  | cons a s1' ih =>
    intro s2 h
    cases s2 with
    | nil => simp [listLt, lexLt] at h
    | cons b s2' =>
      simp only [commonLoop]
      by_cases hab : a = b
      · subst hab
        simp only [listLt, lexLt, strLt_irrefl a, Bool.false_eq_true, if_false] at h
        obtain ⟨c, hc⟩ := ih s2' h
        exact ⟨a :: c, by simp [hc]⟩
      · exact ⟨[], by simp [hab]⟩

/-- For a lexicographic order with a connected element comparison, any
common starting segment of a lower bound `s1` and an upper bound `s2`
also starts every list between them. -/
theorem lexLt_between {α : Type} (lt : α → α → Bool)
    (hconn : ∀ a b, lt a b = false → lt b a = false → a = b) :
    ∀ (c s1 s2 x : List α), c <+: s1 → c <+: s2 →
      lexLt lt x s1 = false → lexLt lt s2 x = false → c <+: x := by
  intro c
  induction c with
  | nil => intro s1 s2 x _ _ _ _; exact List.nil_prefix
  | cons a c' ihc =>
    intro s1 s2 x h1 h2 hx1 hx2
    cases s1 with
    | nil => obtain ⟨t, ht⟩ := h1; simp at ht
    | cons u s1' =>
      obtain ⟨rfl, h1'⟩ := List.cons_prefix_cons.1 h1
      cases s2 with
      | nil => obtain ⟨t, ht⟩ := h2; simp at ht
      | cons v s2' =>
        obtain ⟨rfl, h2'⟩ := List.cons_prefix_cons.1 h2
        cases x with
        | nil => simp [lexLt] at hx1
        | cons b x' =>
          simp only [lexLt] at hx1 hx2
          cases hba : lt b a with
          | true => simp [hba] at hx1
          | false =>
            cases hab : lt a b with
            | true => simp [hab] at hx2
            | false =>
              have hab' : a = b := hconn a b hab hba
              subst hab'
              simp only [hba, hab, Bool.false_eq_true, if_false] at hx1 hx2
              exact List.cons_prefix_cons.2 ⟨rfl, ihc s1' s2' x' h1' h2' hx1 hx2⟩

/-! ### Splitting and joining path segments -/

theorem pySplit_ne_nil (sep : Char) : ∀ s : Str, pySplit sep s ≠ [] := by
  intro s
  cases s with
  | nil => simp [pySplit]
  | cons c rest =>
    simp only [pySplit]
    by_cases h : c = sep
    · simp [h]
    · rw [if_neg h]
      cases hsplit : pySplit sep rest with
      | nil => simp
      | cons t ts => simp

theorem pySplit_sep_not_mem (sep : Char) : ∀ (s : Str) (t : Str), t ∈ pySplit sep s →
    sep ∉ t := by
  intro s
  induction s with
  | nil =>
    intro t ht
    simp only [pySplit, List.mem_singleton] at ht
    simp [ht]
  | cons c rest ih =>
    intro t ht
    simp only [pySplit] at ht
    by_cases h : c = sep
    · rw [if_pos h] at ht
      rcases List.mem_cons.1 ht with h1 | h1
      · simp [h1]
      · exact ih t h1
    · rw [if_neg h] at ht
      cases hsplit : pySplit sep rest with
      | nil => exact absurd hsplit (pySplit_ne_nil sep rest)
      | cons u us =>
        rw [hsplit] at ht
        rcases List.mem_cons.1 ht with h1 | h1
        · subst h1
          intro hmem
          rcases List.mem_cons.1 hmem with h2 | h2
          · exact h h2.symm
          · exact ih u (by simp [hsplit]) h2
        · exact ih t (by simp [hsplit, h1])

theorem pySplit_no_sep (sep : Char) : ∀ s : Str, sep ∉ s → pySplit sep s = [s] := by
  intro s
  induction s with
  | nil => intro _; rfl
  | cons c rest ih =>
    intro h
    simp only [List.mem_cons, not_or] at h
    have hcs : ¬c = sep := fun hc => h.1 hc.symm
    simp only [pySplit, if_neg hcs]
    rw [ih h.2]

theorem pySplit_append_sep (sep : Char) : ∀ (s u : Str), sep ∉ s →
    pySplit sep (s ++ sep :: u) = s :: pySplit sep u := by
  intro s
  induction s with
  | nil => intro u _; simp [pySplit]
  | cons c rest ih =>
    intro u h
    simp only [List.mem_cons, not_or] at h
    have hcs : ¬c = sep := fun hc => h.1 hc.symm
    simp only [List.cons_append, pySplit, if_neg hcs, List.append_eq]
    rw [ih u h.2]

theorem pySplit_pyJoin (sep : Char) : ∀ segs : List Str, segs ≠ [] →
    (∀ t ∈ segs, sep ∉ t) → pySplit sep (pyJoin sep segs) = segs := by
  intro segs
  induction segs with
  | nil => intro h _; exact absurd rfl h
  | cons s rest ih =>
    intro _ hwf
    cases rest with
    | nil => exact pySplit_no_sep sep s (hwf s (by simp))
    | cons t rest2 =>
      have h1 : pyJoin sep (s :: t :: rest2) = s ++ sep :: pyJoin sep (t :: rest2) := rfl
      rw [h1, pySplit_append_sep sep s _ (hwf s (by simp)),
        ih (by simp) (fun u hu => hwf u (List.mem_cons_of_mem s hu))]

theorem splitNorm_wf : ∀ (p : Str) (t : Str), t ∈ splitNorm p →
    t ≠ [] ∧ t ≠ ['.'] ∧ '/' ∉ t := by
  intro p t ht
  simp only [splitNorm, List.mem_filter, Bool.and_eq_true, Bool.not_eq_true',
    decide_eq_false_iff_not] at ht
  obtain ⟨hmem, hne, hdot⟩ := ht
  refine ⟨?_, ?_, pySplit_sep_not_mem '/' p t hmem⟩
  · intro hnil; rw [hnil] at hne; simp at hne
  · intro hd; exact absurd hd (by simpa using hdot)

theorem splitNorm_join : ∀ c : List Str, (∀ t ∈ c, t ≠ [] ∧ t ≠ ['.'] ∧ '/' ∉ t) →
    splitNorm ('/' :: pyJoin '/' c) = c := by
  intro c hwf
  have hsplit : pySplit '/' ('/' :: pyJoin '/' c) = [] :: pySplit '/' (pyJoin '/' c) := by
    simp [pySplit]
  cases c with
  | nil =>
    simp only [splitNorm, pyJoin, hsplit]
    rfl
  | cons s rest =>
    simp only [splitNorm, hsplit,
      pySplit_pyJoin '/' (s :: rest) (by simp) (fun t ht => (hwf t ht).2.2)]
    rw [List.filter_cons]
    simp only [List.isEmpty_nil, Bool.not_true, Bool.false_and, if_false]
    exact List.filter_eq_self.2 fun t ht => by
      obtain ⟨hne, hdot, _⟩ := hwf t ht
      simp [List.isEmpty_iff, hne, hdot]

/-! ### Sorting and subfolder removal -/

theorem strLt_asymm : ∀ a b : Str, strLt a b = true → strLt b a = false := by
  intro a b h
  cases h2 : strLt b a with
  | false => rfl
  | true =>
    have h3 := strLt_trans a b a h h2
    rw [strLt_irrefl] at h3
    exact absurd h3 (by simp)

theorem insertSorted_mem : ∀ (l : List Str) (x y : Str),
    y ∈ insertSorted x l ↔ y = x ∨ y ∈ l := by
  intro l
  induction l with
  | nil => intro x y; simp [insertSorted]
  | cons z zs ih =>
    intro x y
    simp only [insertSorted]
    cases h : strLt x z with
    | true => simp only [if_true, List.mem_cons]
    | false =>
      simp only [Bool.false_eq_true, if_false, List.mem_cons, ih]
      tauto

theorem pairwise_insertSorted : ∀ (l : List Str) (x : Str),
    List.Pairwise (fun a b => strLt b a = false) l →
    List.Pairwise (fun a b => strLt b a = false) (insertSorted x l) := by
  intro l
  induction l with
  | nil => intro x _; simp [insertSorted]
  | cons y ys ih =>
    intro x hp
    rw [List.pairwise_cons] at hp
    obtain ⟨hy, hys⟩ := hp
    simp only [insertSorted]
    cases h : strLt x y with
    | true =>
      rw [if_pos rfl, List.pairwise_cons]
      constructor
      · intro z hz
        rcases List.mem_cons.1 hz with rfl | hz2
        · exact strLt_asymm x z h
        · cases h2 : strLt z x with
          | false => rfl
          | true =>
            have h3 := strLt_trans z x y h2 h
            rw [hy z hz2] at h3
            exact absurd h3 (by simp)
      · rw [List.pairwise_cons]; exact ⟨hy, hys⟩
    | false =>
      rw [if_neg (by simp), List.pairwise_cons]
      constructor
      · intro z hz
        rcases (insertSorted_mem ys x z).1 hz with rfl | hz2
        · exact h
        · exact hy z hz2
      · exact ih x hys

theorem pySorted_pairwise : ∀ l : List Str,
    List.Pairwise (fun a b => strLt b a = false) (pySorted l) := by
  intro l
  induction l with
  | nil => simp [pySorted]
  | cons a l ih =>
    have h1 : pySorted (a :: l) = insertSorted a (pySorted l) := rfl
    rw [h1]
    exact pairwise_insertSorted (pySorted l) a ih

theorem insertSorted_eq_cons : ∀ (l : List Str) (x : Str),
    (∀ z ∈ l, strLt z x = false) → insertSorted x l = x :: l := by
  intro l
  induction l with
  | nil => intro x _; rfl
  | cons y ys ih =>
    intro x hall
    simp only [insertSorted]
    cases h : strLt x y with
    | true => rfl
    | false =>
      have hyx : strLt y x = false := hall y (by simp)
      have hxy : x = y := strLt_conn x y h hyx
      simp only [Bool.false_eq_true, if_false]
      rw [ih x fun z hz => hall z (List.mem_cons_of_mem y hz)]
      rw [hxy]

theorem pySorted_eq_self : ∀ l : List Str,
    List.Pairwise (fun a b => strLt b a = false) l → pySorted l = l := by
  intro l
  induction l with
  | nil => intro _; rfl
  | cons a l ih =>
    intro hp
    rw [List.pairwise_cons] at hp
    obtain ⟨ha, hl⟩ := hp
    have h1 : pySorted (a :: l) = insertSorted a (pySorted l) := rfl
    rw [h1, ih hl, insertSorted_eq_cons l a ha]

theorem dedupAux_sublist : ∀ (l : List Str) (last : Str), (dedupAux last l).Sublist l := by
  intro l
  induction l with
  | nil => intro last; simp [dedupAux]
  | cons f fs ih =>
    intro last
    simp only [dedupAux]
    cases h : pyStartswith f last with
    | true => exact List.Sublist.cons f (ih last)
    | false => exact List.Sublist.cons₂ f (ih f)

theorem dedupAux_idem : ∀ (l : List Str) (last : Str),
    dedupAux last (dedupAux last l) = dedupAux last l := by
  intro l
  induction l with
  | nil => intro last; rfl
  | cons f fs ih =>
    intro last
    simp only [dedupAux]
    cases h : pyStartswith f last with
    | true => simpa only [Bool.true_eq_false, if_true] using ih last
    | false =>
      simp only [Bool.false_eq_true, if_false, dedupAux, h]
      rw [ih f]

theorem dedupSpecAux_eq_dedupAux : ∀ (l : List Str) (last : Str),
    dedupSpecAux (some last) l = dedupAux last l := by
  intro l
  induction l with
  | nil => intro last; rfl
  | cons f fs ih =>
    intro last
    simp only [dedupSpecAux, dedupAux]
    cases h : pyStartswith f last with
    | true => simp only [if_true]; exact ih last
    | false => simp only [Bool.false_eq_true, if_false]; rw [ih f]

/-! ## The claims -/

/-- Claim C1 (code bug in base.py).  The spec requires a non-zero exit
code to surface a tool-level error whose message is the trimmed stderr,
but `_is_search_error` is missing its `return`, so it always returns
`None`: for exit code 1 with stderr `no such option` the search does not
produce the RuntimeError carrying the stderr text (with empty stdout it
raises IndexError instead), and no input whatsoever can reach the
RuntimeError branch of `run`. -/
theorem claim_C1_nonzero_exit_not_an_error :
    _is_search_error 1 (("").toList) (("no such option").toList) = none
    ∧ run_after_communicate 1 (("").toList) (("no such option").toList) =
        Except.error (.indexError)
    ∧ ∀ (rc : Int) (out err : Str),
        run_after_communicate rc out err = _parse_output (_sanitize_output out) :=
  ⟨rfl, by decide, fun _ _ _ => rfl⟩

/-- Claim C2 (code bug in base.py).  Parsing is not total:
`_parse_output` evaluates `findall(line)[0]`, so a single line that fails
to match `PARSER_RE` raises IndexError and aborts the whole result set,
even when another line of the same output parses fine. -/
theorem claim_C2_unparsable_line_aborts :
    _parse_output (("/a/f.go:1:2:text").toList) =
      Except.ok [(("/a/f.go").toList, ("1:2").toList, ("text").toList)]
    ∧ _parse_output (("/a/f.go:1:2:text\ngarbage").toList) =
      Except.error (.indexError) :=
  ⟨by decide, by decide⟩

/-- Claim C3 (code bug in base.py).  On exit code 0 with empty stdout the
spec requires an empty result list, but `run` splits the empty stdout
into the single empty line, which does not match `PARSER_RE`, so the
`[0]` indexing raises IndexError instead of returning no matches. -/
theorem claim_C3_empty_stdout_crashes :
    run_after_communicate 0 (("").toList) (("").toList) = Except.error (.indexError)
    ∧ run_after_communicate 0 (("").toList) (("").toList) ≠ Except.ok [] :=
  ⟨by decide, by decide⟩

/-- Claim C4, counterexample.  `_remove_subfolders` decides sub-path by a
raw `startswith` on strings, not on path-segment boundaries: on the roots
`/a/b` and `/a/bc` the code drops `/a/bc` even though it is not a
sub-path of `/a/b`, while the claim requires both to be kept. -/
theorem claim_C4_counterexample :
    _remove_subfolders [("/a/b").toList, ("/a/bc").toList] = [("/a/b").toList]
    ∧ _remove_subfolders [("/a/b").toList, ("/a/bc").toList] ≠
        [("/a/b").toList, ("/a/bc").toList] :=
  ⟨by decide, by decide⟩

/-- Claim C4 as amended: deduplication sorts the roots lexicographically
and keeps a root iff it does not start with (raw string prefix, not
segment boundaries) the most recently kept root; on
`/a/b, /a/b/c, /x/y` it yields `/a/b, /x/y`. -/
theorem claim_C4_raw_dedup :
    (∀ roots : List Str, _remove_subfolders roots = deduplicateRootsSpec roots)
    ∧ _remove_subfolders [("/a/b").toList, ("/a/b/c").toList, ("/x/y").toList] =
        [("/a/b").toList, ("/x/y").toList] := by
  constructor
  · intro roots
    unfold _remove_subfolders deduplicateRootsSpec
    cases h : pySorted roots with
    | nil => rfl
    | cons f fs =>
      simp only [dedupSpecAux]
      rw [dedupSpecAux_eq_dedupAux]
  · decide

/-- Claim C5.  For a non-empty list of absolute paths, `commonpath`
returns the absolute path whose normalized segments are a common
segment-wise starting sequence of every input's normalized segments
(empty and `.` segments dropped), and a longest one: no extra segment
keeps it a starting sequence of all inputs. -/
theorem claim_C5_commonpath_longest (paths : List Str) (hne : paths ≠ [])
    (habs : ∀ p ∈ paths, p.take 1 = ['/']) :
    ∃ c : List Str,
      commonpath paths = Except.ok ('/' :: pyJoin '/' c)
      ∧ splitNorm ('/' :: pyJoin '/' c) = c
      ∧ (∀ p ∈ paths, c <+: splitNorm p)
      ∧ (∀ s : Str, ¬ ∀ p ∈ paths, (c ++ [s]) <+: splitNorm p) := by
  cases paths with
  | nil => exact absurd rfl hne
  | cons p0 rest =>
    have habs0 : p0.take 1 = ['/'] := habs p0 (by simp)
    have hall : (rest.all fun p =>
        decide (p.take 1 = ['/']) == decide (p0.take 1 = ['/'])) = true := by
      rw [List.all_eq_true]
      intro p hp
      have h1 := habs p (List.mem_cons_of_mem p0 hp)
      rw [h1, habs0]
      rfl
    have hmem1 := pyMinL_mem (rest.map splitNorm) (splitNorm p0)
    have hmem2 := pyMaxL_mem (rest.map splitNorm) (splitNorm p0)
    have hminmax : listLt (pyMaxL (splitNorm p0) (rest.map splitNorm))
        (pyMinL (splitNorm p0) (rest.map splitNorm)) = false :=
      pyMinL_le (rest.map splitNorm) (splitNorm p0) _ hmem2
    obtain ⟨c, hc⟩ := commonLoop_isSome _ _ hminmax
    obtain ⟨hc1, hc2⟩ := commonLoop_isPre _ _ c hc
    have hmemOf : ∀ y ∈ splitNorm p0 :: rest.map splitNorm,
        ∃ p ∈ p0 :: rest, splitNorm p = y := by
      intro y hy
      rcases List.mem_cons.1 hy with hy0 | hy1
      · exact ⟨p0, by simp, hy0.symm⟩
      · obtain ⟨p, hp, hpy⟩ := List.mem_map.1 hy1
        exact ⟨p, List.mem_cons_of_mem p0 hp, hpy⟩
    have hpreAll : ∀ p ∈ p0 :: rest, c <+: splitNorm p := by
      intro p hp
      have hyin : splitNorm p ∈ splitNorm p0 :: rest.map splitNorm := by
        rcases List.mem_cons.1 hp with hp0 | hp1
        · rw [hp0]; exact List.mem_cons_self _ _
        · exact List.mem_cons_of_mem _ (List.mem_map_of_mem splitNorm hp1)
      exact lexLt_between strLt strLt_conn c _ _ (splitNorm p) hc1 hc2
        (pyMinL_le _ _ _ hyin) (pyMaxL_ge _ _ _ hyin)
    have hwf : ∀ t ∈ c, t ≠ [] ∧ t ≠ ['.'] ∧ '/' ∉ t := by
      intro t ht
      obtain ⟨p1, hp1, he1⟩ := hmemOf _ hmem1
      have hcp : c <+: splitNorm p1 := by rw [he1]; exact hc1
      exact splitNorm_wf p1 t (hcp.sublist.subset ht)
    refine ⟨c, ?_, splitNorm_join c hwf, hpreAll, ?_⟩
    · simp only [commonpath]
      rw [if_pos hall, hc]
      simp [habs0]
    · intro s hsub
      obtain ⟨p1, hp1, he1⟩ := hmemOf _ hmem1
      obtain ⟨p2, hp2, he2⟩ := hmemOf _ hmem2
      have h1 := hsub p1 hp1
      have h2 := hsub p2 hp2
      rw [he1] at h1
      rw [he2] at h2
      exact commonLoop_longest _ _ c hc s ⟨h1, h2⟩

/-- Witness for claim C5, instantiated on the spec's own test pair. -/
theorem claim_C5_witness :
    ∃ c : List Str,
      commonpath [("/a/b/c").toList, ("/a/b/d").toList] = Except.ok ('/' :: pyJoin '/' c)
      ∧ splitNorm ('/' :: pyJoin '/' c) = c
      ∧ (∀ p ∈ [("/a/b/c").toList, ("/a/b/d").toList], c <+: splitNorm p)
      ∧ (∀ s : Str, ¬ ∀ p ∈ [("/a/b/c").toList, ("/a/b/d").toList],
          (c ++ [s]) <+: splitNorm p) :=
  claim_C5_commonpath_longest [("/a/b/c").toList, ("/a/b/d").toList]
    (by decide) (by decide)

/-- Claim C6.  The argument vector is exactly the executable, the
shell-word-split tokens of the mandatory options, the shell-word-split
tokens of the common options, the query as one literal argument, then
each folder. -/
theorem claim_C6_argument_vector
    (path_to_executable mandatory_options common_options query : Str)
    (folders : List Str) (m c : List Str)
    (hm : shlexSplit mandatory_options = Except.ok m)
    (hc : shlexSplit common_options = Except.ok c) :
    _arguments path_to_executable mandatory_options common_options query folders =
      Except.ok ([path_to_executable] ++ m ++ c ++ [query] ++ folders) := by
  unfold _arguments
  rw [hm, hc]
  rfl

/-- Witness for claim C6 at the spec's example: mandatory `--flag1`,
common `--flag2 "two words"`, query `needle`, folders `/a` and `/b`. -/
theorem claim_C6_witness :
    _arguments (("rg").toList) (("--flag1").toList) (("--flag2 \"two words\"").toList)
      (("needle").toList) [("/a").toList, ("/b").toList] =
      Except.ok [("rg").toList, ("--flag1").toList, ("--flag2").toList,
        ("two words").toList, ("needle").toList, ("/a").toList, ("/b").toList] :=
  claim_C6_argument_vector (("rg").toList) (("--flag1").toList)
    (("--flag2 \"two words\"").toList) (("needle").toList)
    [("/a").toList, ("/b").toList]
    [("--flag1").toList] [("--flag2").toList, ("two words").toList]
    (by decide) (by decide)

/-- Claim C7.  `commonpath` on an empty sequence raises the
empty-sequence ValueError, and on a mix of absolute and relative paths
raises the mixed-paths ValueError rather than returning a result. -/
theorem claim_C7_commonpath_errors :
    commonpath [] = Except.error (.valueErrorEmptySeq)
    ∧ commonpath [("/a").toList, ("rel/b").toList] = Except.error (.valueErrorMixedPaths) :=
  ⟨rfl, by decide⟩

/-- Claim C8.  `PARSER_RE` on `/home/u/file.go:12:3:    some matched text`
captures the file path, the colon-bearing location `12:3`, and the
matched text with its leading spaces; `_parse_output` on that single line
returns exactly that one record. -/
theorem claim_C8_parse_example_line :
    reMatchLine (("/home/u/file.go:12:3:    some matched text").toList) =
      some (("/home/u/file.go").toList, ("12:3").toList, ("    some matched text").toList)
    ∧ _parse_output (("/home/u/file.go:12:3:    some matched text").toList) =
      Except.ok [(("/home/u/file.go").toList, ("12:3").toList,
        ("    some matched text").toList)] :=
  ⟨by decide, by decide⟩

/-- Claim C9.  A singleton input returns that path itself, not its
parent, and the two-path fixed case returns the shared directory. -/
theorem claim_C9_commonpath_singleton :
    commonpath [("/a/b/c").toList] = Except.ok (("/a/b/c").toList)
    ∧ commonpath [("/a/b/c").toList, ("/a/b/d").toList] = Except.ok (("/a/b").toList) :=
  ⟨by decide, by decide⟩

/-- Claim C10.  `_remove_subfolders` returns a lexicographically sorted
sublist of the sorted input, and it is idempotent. -/
theorem claim_C10_dedup_sorted_idem (folders : List Str) :
    List.Pairwise (fun a b => strLt b a = false) (_remove_subfolders folders)
    ∧ (_remove_subfolders folders).Sublist (pySorted folders)
    ∧ _remove_subfolders (_remove_subfolders folders) = _remove_subfolders folders := by
  have hsub : (_remove_subfolders folders).Sublist (pySorted folders) := by
    unfold _remove_subfolders
    cases h : pySorted folders with
    | nil => simp
    | cons f fs => exact List.Sublist.cons₂ f (dedupAux_sublist fs f)
  have hpw : List.Pairwise (fun a b => strLt b a = false) (_remove_subfolders folders) :=
    List.Pairwise.sublist hsub (pySorted_pairwise folders)
  refine ⟨hpw, hsub, ?_⟩
  have hid : pySorted (_remove_subfolders folders) = _remove_subfolders folders :=
    pySorted_eq_self _ hpw
  cases h : pySorted folders with
  | nil =>
    have h0 : _remove_subfolders folders = [] := by
      unfold _remove_subfolders
      rw [h]
    rw [h0]
    rfl
  | cons f fs =>
    have h0 : _remove_subfolders folders = f :: dedupAux f fs := by
      unfold _remove_subfolders
      rw [h]
    rw [h0] at hid
    rw [h0]
    unfold _remove_subfolders
    rw [hid]
    show f :: dedupAux f (dedupAux f fs) = f :: dedupAux f fs
    rw [dedupAux_idem]

/-- Witness for claim C10 at the spec's deduplication example. -/
theorem claim_C10_witness :
    List.Pairwise (fun a b => strLt b a = false)
      (_remove_subfolders [("/a/b").toList, ("/a/b/c").toList, ("/x/y").toList])
    ∧ (_remove_subfolders [("/a/b").toList, ("/a/b/c").toList, ("/x/y").toList]).Sublist
        (pySorted [("/a/b").toList, ("/a/b/c").toList, ("/x/y").toList])
    ∧ _remove_subfolders (_remove_subfolders
        [("/a/b").toList, ("/a/b/c").toList, ("/x/y").toList]) =
      _remove_subfolders [("/a/b").toList, ("/a/b/c").toList, ("/x/y").toList] :=
  claim_C10_dedup_sorted_idem [("/a/b").toList, ("/a/b/c").toList, ("/x/y").toList]

end SearchInProject

